import Mathlib

/-!
Verification development for the keploy TLS capture headers
(pkg/hooks/headers) and the Stream Reassembly Engine described by the
accompanying design document.

The first part translates the C declarations of
`openssl_tracer_types.h`, `tls_message.h` and `bpf_core_read.h` into a
shallow embedding: enumerations become inductive types with their C
numeric values, struct declarations become field-descriptor lists, and a
value-level model of `ssl_data_event_t` carries the machine-integer
bounds of the declared field types.

The second part models the user-space Stream Reassembly Engine.  Its
implementation is not part of the header tree, so the per-stream buffer
(`RB`) is modelled from the design document's wording (`insert`,
`drain_ready`, gap markers, forced flush on the per-stream byte
ceiling); each such definition says so in its doc comment.
-/

namespace KeployTLS

/-- Constant MAX_DATA_SIZE of openssl_tracer_types.h: size of the fixed
payload buffer of one capture event. -/
def MAX_DATA_SIZE : Nat := 8192

/-- Constant MAX_DATA of tls_message.h: size of the fixed message buffer of
one TLS_MESSAGE. -/
def MAX_DATA : Nat := 8192

/-- C types appearing in the capture header declarations.  Here `int` is the
32-bit signed integer of the eBPF and x86-64 targets these headers are
compiled for. -/
inductive CType where
  | uint32
  | uint64
  | int
  | charArray (size : Nat)
  | enumSslDataEventType
deriving DecidableEq

/-- Bit width of a C type; a char array of n elements occupies 8 * n bits. -/
def CType.bitWidth : CType → Nat
  | .uint32 => 32
  | .uint64 => 64
  | .int => 32
  | .charArray n => 8 * n
  | .enumSslDataEventType => 32

/-- Signedness of a C type; enums are int-compatible, hence signed. -/
def CType.isSigned : CType → Bool
  | .uint32 => false
  | .uint64 => false
  | .int => true
  | .charArray _ => false
  | .enumSslDataEventType => true

/-- One field of a C struct declaration: a name and a declared type. -/
structure CField where
  fname : String
  ftype : CType
deriving DecidableEq

/-- Enumeration ssl_data_event_type of openssl_tracer_types.h: the direction
of the captured library call.  Declared as `enum ssl_data_event_type
\x7b kSSLRead, kSSLWrite \x7d`. -/
inductive ssl_data_event_type where
  | kSSLRead
  | kSSLWrite
deriving DecidableEq

/-- Numeric value of each direction enumerator under the C default
numbering: the first enumerator is 0, the next 1. -/
def ssl_data_event_type.toNat : ssl_data_event_type → Nat
  | .kSSLRead => 0
  | .kSSLWrite => 1

/-- Field list of `struct ssl_data_event_t` of openssl_tracer_types.h, in
declaration order. -/
def ssl_data_event_t : List CField :=
  [⟨"type", .enumSslDataEventType⟩,
   ⟨"timestamp_ns", .uint64⟩,
   ⟨"pid", .uint32⟩,
   ⟨"tid", .int⟩,
   ⟨"data", .charArray MAX_DATA_SIZE⟩,
   ⟨"data_len", .int⟩]

/-- Field list of `struct TLS_MESSAGE` of tls_message.h, in declaration
order. -/
def TLS_MESSAGE : List CField :=
  [⟨"elapsed", .int⟩,
   ⟨"ptid", .int⟩,
   ⟨"message", .charArray MAX_DATA⟩]

/-- Enumeration bpf_field_info_kind of bpf_core_read.h: the aspect of a
field that a CO-RE relocation query asks about. -/
inductive bpf_field_info_kind where
  | BPF_FIELD_BYTE_OFFSET
  | BPF_FIELD_BYTE_SIZE
  | BPF_FIELD_EXISTS
  | BPF_FIELD_SIGNED
  | BPF_FIELD_LSHIFT_U64
  | BPF_FIELD_RSHIFT_U64
deriving DecidableEq

/-- Numeric value of each bpf_field_info_kind enumerator, as written in the
declaration (0 through 5). -/
def bpf_field_info_kind.toNat : bpf_field_info_kind → Nat
  | .BPF_FIELD_BYTE_OFFSET => 0
  | .BPF_FIELD_BYTE_SIZE => 1
  | .BPF_FIELD_EXISTS => 2
  | .BPF_FIELD_SIGNED => 3
  | .BPF_FIELD_LSHIFT_U64 => 4
  | .BPF_FIELD_RSHIFT_U64 => 5

/-- Value-level model of one `struct ssl_data_event_t`: machine integers are
Nat/Int, with the declared widths captured by `SslDataEvent.WF`. -/
structure SslDataEvent where
  type : ssl_data_event_type
  timestamp_ns : Nat
  pid : Nat
  tid : Int
  data : List Nat
  data_len : Int
deriving DecidableEq

/-- Well-formedness of an event value: every field value fits the width of
its declared C type, and the data buffer has its declared fixed size. -/
def SslDataEvent.WF (e : SslDataEvent) : Prop :=
  e.timestamp_ns < 2 ^ 64 ∧ e.pid < 2 ^ 32 ∧
  -2 ^ 31 ≤ e.tid ∧ e.tid < 2 ^ 31 ∧
  e.data.length = MAX_DATA_SIZE ∧ (∀ b ∈ e.data, b < 2 ^ 8) ∧
  -2 ^ 31 ≤ e.data_len ∧ e.data_len < 2 ^ 31

instance (e : SslDataEvent) : Decidable e.WF := by
  unfold SslDataEvent.WF; infer_instance

/-- Valid payload of an event: only the first data_len bytes of the fixed
buffer are valid. -/
def SslDataEvent.payload (e : SslDataEvent) : List Nat :=
  e.data.take e.data_len.toNat

/-- Lookup of a field's declared type in a struct's field list. -/
def fieldType (fields : List CField) (nm : String) : Option CType :=
  (fields.find? fun f => f.fname == nm).map fun f => f.ftype

/-! ## Stream Reassembly Engine model

Modelled from the spec: the engine itself (Connection Key Resolver,
Per-Stream Reassembly Buffer, orchestrator) is not part of the header
tree, so the definitions below follow sections 3, 4.2 and 8 of the design
document. -/

/-- Modelled from the spec: one chunk held by a per-stream buffer.  `pos` is
the chunk's inferred position in the stream's total order (timestamp,
tie-broken by arrival order), `ts` its capture timestamp, `payload` its
bytes. -/
structure Chunk where
  pos : Nat
  ts : Nat
  payload : List Nat
deriving DecidableEq

/-- Modelled from the spec: a buffered chunk together with the engine time
at which it was inserted, used for the gap-timeout ageing test. -/
structure Pending where
  c : Chunk
  arrivedAt : Nat
deriving DecidableEq

/-- Modelled from the spec: one item emitted to the downstream sink — either
an ordered contiguous segment of chunks starting at a stream position, or a
gap marker recording how many positions were lost. -/
inductive OutItem where
  | seg (startPos : Nat) (chunks : List Chunk)
  | gap (startPos : Nat) (missing : Nat)
deriving DecidableEq

/-- Start position of an emitted item. -/
def itemStart : OutItem → Nat
  | .seg s _ => s
  | .gap s _ => s

/-- Number of stream positions an emitted item covers. -/
def itemLen : OutItem → Nat
  | .seg _ cs => cs.length
  | .gap _ n => n

/-- Predicate (as Bool): True when an item is a data segment. -/
def isSeg : OutItem → Bool
  | .seg _ _ => true
  | .gap _ _ => false

/-- Modelled from the spec: the state of one Per-Stream Reassembly Buffer —
the gap-timeout and per-stream byte ceiling knobs, the expected next
position, the out-of-order pending set, and the dropped-duplicate metric. -/
structure RB where
  gap_timeout : Nat
  max_buffered_bytes_per_stream : Nat
  nextPos : Nat
  pending : List Pending
  droppedDups : Nat
deriving DecidableEq

/-- Modelled from the spec: a freshly created stream buffer. -/
def RB.init (gapTO maxB : Nat) : RB :=
  ⟨gapTO, maxB, 0, [], 0⟩

/-- Total buffered-but-unemitted bytes of a pending set. -/
def bufferedBytes (pending : List Pending) : Nat :=
  (pending.map fun p => p.c.payload.length).sum

/-- True when an identical (timestamp, payload) pair is already pending. -/
def dupIn (c : Chunk) (pending : List Pending) : Bool :=
  pending.any fun p => p.c.ts == c.ts && p.c.payload == c.payload

/-- True when some pending chunk already occupies a position. -/
def posIn (pos : Nat) (pending : List Pending) : Bool :=
  pending.any fun p => p.c.pos == pos

/-- Modelled from the spec: `insert(event)` stores the chunk keyed by its
inferred position.  It fails silently, only counting a dropped duplicate,
when an identical (timestamp, payload) pair is already present; since the
buffer is a forward-only reassembly window keyed by position, a chunk whose
position was already emitted or is already occupied is likewise dropped as
a duplicate. -/
def RB.insert (b : RB) (now : Nat) (c : Chunk) : RB :=
  if dupIn c b.pending then
    { b with droppedDups := b.droppedDups + 1 }
  else if c.pos < b.nextPos then
    { b with droppedDups := b.droppedDups + 1 }
  else if posIn c.pos b.pending then
    { b with droppedDups := b.droppedDups + 1 }
  else
    { b with pending := ⟨c, now⟩ :: b.pending }

/-- First pending chunk at a given position, if any. -/
def findAtPos (pos : Nat) : List Pending → Option Pending
  | [] => none
  | p :: rest => if p.c.pos == pos then some p else findAtPos pos rest

/-- Pending set with the first chunk at a given position removed. -/
def removeAtPos (pos : Nat) : List Pending → List Pending
  | [] => []
  | p :: rest => if p.c.pos == pos then rest else p :: removeAtPos pos rest

/-- Smallest position among the pending chunks, if any. -/
def minPendingPos (pending : List Pending) : Option Nat :=
  pending.foldr
    (fun p acc =>
      match acc with
      | none => some p.c.pos
      | some m => some (Nat.min p.c.pos m))
    none

/-- Earliest insertion time among the pending chunks, if any. -/
def oldestArrival (pending : List Pending) : Option Nat :=
  pending.foldr
    (fun p acc =>
      match acc with
      | none => some p.arrivedAt
      | some m => some (Nat.min p.arrivedAt m))
    none

/-- Modelled from the spec: the oldest pending chunk has aged beyond the
gap-timeout. -/
def gapExpired (gapTO now : Nat) (pending : List Pending) : Bool :=
  match oldestArrival pending with
  | none => false
  | some a => decide (a + gapTO ≤ now)

/-- Extraction of the maximal contiguous run of pending chunks starting at a
position: repeatedly remove the chunk at the current position and advance.
Fuel bounds the recursion; `pending.length` is always enough. -/
def extractRunAux : Nat → Nat → List Pending → List Chunk × List Pending
  | 0, _, pending => ([], pending)
  | fuel + 1, pos, pending =>
    match findAtPos pos pending with
    | none => ([], pending)
    | some p =>
      let rest := removeAtPos pos pending
      let r := extractRunAux fuel (pos + 1) rest
      (p.c :: r.1, r.2)

/-- Modelled from the spec: the drain loop of `drain_ready()`.  While the
chunk at the expected next position is available, it concatenates the
maximal contiguous run into one ordered segment and advances; if the next
expected chunk is missing but newer chunks exist and the oldest pending
chunk has aged beyond the gap-timeout, it emits a gap marker, advances past
the hole, and emits the segment found there.  Returns the emitted items,
the new expected position and the remaining pending set. -/
def drainAux : Nat → Nat → Nat → Nat → List Pending → List OutItem × Nat × List Pending
  | 0, _, _, nextPos, pending => ([], nextPos, pending)
  | fuel + 1, gapTO, now, nextPos, pending =>
    match minPendingPos pending with
    | none => ([], nextPos, pending)
    | some m =>
      if nextPos < m then
        if gapExpired gapTO now pending then
          let er := extractRunAux pending.length m pending
          let r := drainAux fuel gapTO now (m + er.1.length) er.2
          (OutItem.gap nextPos (m - nextPos) :: OutItem.seg m er.1 :: r.1, r.2)
        else ([], nextPos, pending)
      else
        let er := extractRunAux pending.length nextPos pending
        if er.1.isEmpty then ([], nextPos, pending)
        else
          let r := drainAux fuel gapTO now (nextPos + er.1.length) er.2
          (OutItem.seg nextPos er.1 :: r.1, r.2)

/-- Modelled from the spec: `drain_ready()` — run the drain loop to
completion on the buffer's pending set. -/
def RB.drain_ready (b : RB) (now : Nat) : List OutItem × RB :=
  let r := drainAux (b.pending.length + 1) b.gap_timeout now b.nextPos b.pending
  (r.1, { b with nextPos := r.2.1, pending := r.2.2 })

/-- Modelled from the spec: the forced-flush loop.  While the buffered bytes
exceed the per-stream ceiling, it forces forward progress: it emits the
contiguous run at the expected position, or a gap marker followed by the
run past the hole, regardless of the gap-timeout. -/
def forceAux : Nat → Nat → Nat → List Pending → List OutItem × Nat × List Pending
  | 0, _, nextPos, pending => ([], nextPos, pending)
  | fuel + 1, maxB, nextPos, pending =>
    if bufferedBytes pending ≤ maxB then ([], nextPos, pending)
    else
      match minPendingPos pending with
      | none => ([], nextPos, pending)
      | some m =>
        if nextPos < m then
          let er := extractRunAux pending.length m pending
          let r := forceAux fuel maxB (m + er.1.length) er.2
          (OutItem.gap nextPos (m - nextPos) :: OutItem.seg m er.1 :: r.1, r.2)
        else
          let er := extractRunAux pending.length nextPos pending
          if er.1.isEmpty then ([], nextPos, pending)
          else
            let r := forceAux fuel maxB (nextPos + er.1.length) er.2
            (OutItem.seg nextPos er.1 :: r.1, r.2)

/-- Modelled from the spec: ingesting one event — insert the chunk, then, if
the buffered bytes now exceed `max_buffered_bytes_per_stream`, force
forward progress (early segment emission or flush-with-gap) instead of
letting the buffer grow. -/
def RB.ingest (b : RB) (now : Nat) (c : Chunk) : List OutItem × RB :=
  let b1 := b.insert now c
  let r := forceAux b1.pending.length b1.max_buffered_bytes_per_stream b1.nextPos b1.pending
  (r.1, { b1 with nextPos := r.2.1, pending := r.2.2 })

/-- Modelled from the spec: one event delivered to a stream's buffer —
either an inserted capture chunk or a drain attempt, each at an engine
time. -/
inductive Ev where
  | ins (now : Nat) (c : Chunk)
  | drain (now : Nat)
deriving DecidableEq

/-- One step of the buffer on one event. -/
def RB.step (b : RB) : Ev → List OutItem × RB
  | .ins now c => b.ingest now c
  | .drain now => b.drain_ready now

/-- Run of the buffer over a delivery sequence, concatenating everything
emitted to the sink. -/
def RB.run (b : RB) : List Ev → List OutItem × RB
  | [] => ([], b)
  | e :: evs =>
    let r1 := b.step e
    let r2 := r1.2.run evs
    (r1.1 ++ r2.1, r2.2)

/-- Chunks inserted by a delivery sequence, in delivery order. -/
def insChunks : List Ev → List Chunk
  | [] => []
  | .ins _ c :: evs => c :: insChunks evs
  | .drain _ :: evs => insChunks evs

/-- Chunks held by a pending set. -/
def chunksOf (pending : List Pending) : List Chunk :=
  pending.map Pending.c

/-- Chunks emitted to the sink by a list of output items, in order. -/
def emittedChunks : List OutItem → List Chunk
  | [] => []
  | .seg _ cs :: rest => cs ++ emittedChunks rest
  | .gap _ _ :: rest => emittedChunks rest

/-- Positions covered by the emitted items are consecutive from a start:
each item begins exactly where the previous one ended, so no byte range is
ever skipped silently or emitted twice. -/
def itemsConsecutive : Nat → List OutItem → Bool
  | _, [] => true
  | p, i :: rest => itemStart i == p && itemsConsecutive (p + itemLen i) rest

/-- Sum of the position extents of a list of emitted items. -/
def outLen (out : List OutItem) : Nat :=
  (out.map itemLen).sum

/-- Chunks of a list occupy consecutive positions from a start. -/
def consecPos : Nat → List Chunk → Prop
  | _, [] => True
  | p, c :: cs => c.pos = p ∧ consecPos (p + 1) cs

/-- Well-formed output from a position: data segments carry consecutive
chunks, every item starts where the previous ended. -/
def outWF : Nat → List OutItem → Prop
  | _, [] => True
  | p, .seg s cs :: rest => s = p ∧ consecPos p cs ∧ outWF (p + cs.length) rest
  | p, .gap s n :: rest => s = p ∧ outWF (p + n) rest

/-- Pairwise-distinct positions in a pending set. -/
def posNodup (pending : List Pending) : Prop :=
  pending.Pairwise fun p q => p.c.pos ≠ q.c.pos

/-- Buffer-state invariant: every pending chunk sits at or beyond the
expected next position, and no two pending chunks share a position. -/
def pendWF (n : Nat) (pending : List Pending) : Prop :=
  (∀ p ∈ pending, n ≤ p.c.pos) ∧ posNodup pending

instance (l : List Pending) : Decidable (posNodup l) := by
  unfold posNodup; infer_instance

instance (n : Nat) (l : List Pending) : Decidable (pendWF n l) := by
  unfold pendWF; infer_instance

/-- Specification bundle for one run of a drain or forced-flush loop from a
given state: the output is well formed from the expected position, the new
expected position advanced by exactly the emitted extent, the state
invariant is preserved, the remaining pending set is a sublist of the old
one, and every emitted chunk was pending. -/
def loopSpec (nextPos : Nat) (pending : List Pending)
    (r : List OutItem × Nat × List Pending) : Prop :=
  outWF nextPos r.1 ∧ r.2.1 = nextPos + outLen r.1 ∧ pendWF r.2.1 r.2.2 ∧
  List.Sublist r.2.2 pending ∧ ∀ c ∈ emittedChunks r.1, c ∈ chunksOf pending

/-- Example event used to witness the payload bound. -/
def eventEx : SslDataEvent :=
  ⟨.kSSLRead, 123456789, 42, 7, List.replicate MAX_DATA_SIZE 0, 100⟩

/-- Example buffer with a hole: the chunk at position 2 is pending, the
chunks at positions 0 and 1 were never delivered. -/
def rbC2 : RB :=
  ⟨5, 100, 0, [⟨⟨2, 20, [9]⟩, 0⟩], 0⟩

/-- Example chunk used in witnesses. -/
def chunkEx : Chunk := ⟨0, 1, [1, 2, 3]⟩

/-- Example delivery sequence: two chunks delivered out of order, then one
drain. -/
def evsEx : List Ev :=
  [Ev.ins 0 ⟨1, 6, [3]⟩, Ev.ins 1 ⟨0, 5, [1, 2]⟩, Ev.drain 2]

/-! ## Lemmas about the pending-set primitives -/

theorem findAtPos_cons_pos {pos : Nat} {q : Pending} {rest : List Pending}
    (h : q.c.pos = pos) : findAtPos pos (q :: rest) = some q := by
  simp [findAtPos, h]

theorem findAtPos_cons_neg {pos : Nat} {q : Pending} {rest : List Pending}
    (h : q.c.pos ≠ pos) : findAtPos pos (q :: rest) = findAtPos pos rest := by
  simp [findAtPos, h]

theorem removeAtPos_cons_pos {pos : Nat} {q : Pending} {rest : List Pending}
    (h : q.c.pos = pos) : removeAtPos pos (q :: rest) = rest := by
  simp [removeAtPos, h]

theorem removeAtPos_cons_neg {pos : Nat} {q : Pending} {rest : List Pending}
    (h : q.c.pos ≠ pos) :
    removeAtPos pos (q :: rest) = q :: removeAtPos pos rest := by
  simp [removeAtPos, h]

theorem findAtPos_eq_none {pos : Nat} {l : List Pending}
    (h : findAtPos pos l = none) : ∀ p ∈ l, p.c.pos ≠ pos := by
  induction l with
  | nil => simp
  | cons q rest ih =>
    intro p hp
    by_cases hq : q.c.pos = pos
    · rw [findAtPos_cons_pos hq] at h; exact absurd h (by simp)
    · rw [findAtPos_cons_neg hq] at h
      rcases List.mem_cons.mp hp with hp | hp
      · exact hp ▸ hq
      · exact ih h p hp

theorem findAtPos_eq_some {pos : Nat} {l : List Pending} {p : Pending}
    (h : findAtPos pos l = some p) : p ∈ l ∧ p.c.pos = pos := by
  induction l with
  | nil => simp [findAtPos] at h
  | cons q rest ih =>
    by_cases hq : q.c.pos = pos
    · rw [findAtPos_cons_pos hq] at h
      have : q = p := by simpa using h
      exact ⟨by simp [this], this ▸ hq⟩
    · rw [findAtPos_cons_neg hq] at h
      exact ⟨List.mem_cons_of_mem _ (ih h).1, (ih h).2⟩

theorem findAtPos_some_of_mem {pos : Nat} {l : List Pending}
    (h : ∃ p ∈ l, p.c.pos = pos) : ∃ q, findAtPos pos l = some q := by
  induction l with
  | nil => simp at h
  | cons q rest ih =>
    by_cases hq : q.c.pos = pos
    · exact ⟨q, findAtPos_cons_pos hq⟩
    · obtain ⟨p, hp, hppos⟩ := h
      rcases List.mem_cons.mp hp with hp | hp
      · exact absurd (hp ▸ hppos) hq
      · obtain ⟨r, hr⟩ := ih ⟨p, hp, hppos⟩
        exact ⟨r, (findAtPos_cons_neg hq).trans hr⟩

theorem removeAtPos_sublist (pos : Nat) (l : List Pending) :
    List.Sublist (removeAtPos pos l) l := by
  induction l with
  | nil => simp [removeAtPos]
  | cons q rest ih =>
    by_cases hq : q.c.pos = pos
    · rw [removeAtPos_cons_pos hq]; exact List.sublist_cons_self q rest
    · rw [removeAtPos_cons_neg hq]; exact ih.cons₂ q

theorem removeAtPos_length {pos : Nat} {l : List Pending} {p : Pending}
    (h : findAtPos pos l = some p) :
    (removeAtPos pos l).length + 1 = l.length := by
  induction l with
  | nil => simp [findAtPos] at h
  | cons q rest ih =>
    by_cases hq : q.c.pos = pos
    · rw [removeAtPos_cons_pos hq]; simp
    · rw [findAtPos_cons_neg hq] at h
      rw [removeAtPos_cons_neg hq]
      simpa using ih h

theorem removeAtPos_pos_ne {pos : Nat} {l : List Pending}
    (hnd : posNodup l) : ∀ p ∈ removeAtPos pos l, p.c.pos ≠ pos := by
  induction l with
  | nil => simp [removeAtPos]
  | cons q rest ih =>
    have hhead : ∀ p ∈ rest, q.c.pos ≠ p.c.pos := (List.pairwise_cons.mp hnd).1
    have htail : posNodup rest := (List.pairwise_cons.mp hnd).2
    intro p hp
    by_cases hq : q.c.pos = pos
    · rw [removeAtPos_cons_pos hq] at hp
      exact fun hcon => hhead p hp (hq.trans hcon.symm)
    · rw [removeAtPos_cons_neg hq] at hp
      rcases List.mem_cons.mp hp with hp | hp
      · exact hp ▸ hq
      · exact ih htail p hp

theorem minPendingPos_cons (q : Pending) (l : List Pending) :
    minPendingPos (q :: l) =
      match minPendingPos l with
      | none => some q.c.pos
      | some m => some (Nat.min q.c.pos m) := rfl

theorem minPendingPos_eq_none {l : List Pending} :
    minPendingPos l = none ↔ l = [] := by
  cases l with
  | nil => simp [minPendingPos]
  | cons q rest =>
    rw [minPendingPos_cons]
    cases minPendingPos rest <;> simp

theorem minPendingPos_le {l : List Pending} {m : Nat}
    (h : minPendingPos l = some m) : ∀ p ∈ l, m ≤ p.c.pos := by
  induction l generalizing m with
  | nil => simp [minPendingPos] at h
  | cons q rest ih =>
    rw [minPendingPos_cons] at h
    intro p hp
    cases hrest : minPendingPos rest with
    | none =>
      rw [hrest] at h
      have hq : q.c.pos = m := by simpa using h
      rcases List.mem_cons.mp hp with hp | hp
      · simp [hp, hq]
      · exact absurd (minPendingPos_eq_none.mp hrest) (List.ne_nil_of_mem hp)
    | some m' =>
      rw [hrest] at h
      have hq : Nat.min q.c.pos m' = m := by simpa using h
      have h1 : Nat.min q.c.pos m' ≤ q.c.pos := Nat.min_le_left q.c.pos m'
      have h2 : Nat.min q.c.pos m' ≤ m' := Nat.min_le_right q.c.pos m'
      rw [hq] at h1 h2
      rcases List.mem_cons.mp hp with hp | hp
      · subst hp; exact h1
      · exact le_trans h2 (ih hrest p hp)

theorem minPendingPos_attained {l : List Pending} {m : Nat}
    (h : minPendingPos l = some m) : ∃ p ∈ l, p.c.pos = m := by
  induction l generalizing m with
  | nil => simp [minPendingPos] at h
  | cons q rest ih =>
    rw [minPendingPos_cons] at h
    cases hrest : minPendingPos rest with
    | none =>
      rw [hrest] at h
      have hq : q.c.pos = m := by simpa using h
      exact ⟨q, by simp, hq⟩
    | some m' =>
      rw [hrest] at h
      have hq : Nat.min q.c.pos m' = m := by simpa using h
      rcases Nat.le_total q.c.pos m' with hle | hle
      · have h1 : Nat.min q.c.pos m' = q.c.pos := Nat.min_eq_left hle
        exact ⟨q, by simp, by rw [h1] at hq; exact hq⟩
      · have h1 : Nat.min q.c.pos m' = m' := Nat.min_eq_right hle
        obtain ⟨p, hp, hppos⟩ := ih hrest
        refine ⟨p, List.mem_cons_of_mem _ hp, ?_⟩
        rw [h1] at hq
        exact hppos.trans hq

/-! ## Lemmas about contiguous-run extraction -/

theorem extractRun_spec (fuel : Nat) :
    ∀ (pos : Nat) (pending : List Pending), posNodup pending →
      pending.length ≤ fuel →
      consecPos pos (extractRunAux fuel pos pending).1 ∧
      List.Sublist (extractRunAux fuel pos pending).2 pending ∧
      (∀ c ∈ (extractRunAux fuel pos pending).1, c ∈ chunksOf pending) ∧
      (∀ p ∈ (extractRunAux fuel pos pending).2,
        p.c.pos < pos ∨ pos + (extractRunAux fuel pos pending).1.length < p.c.pos) ∧
      (extractRunAux fuel pos pending).2.length
          + (extractRunAux fuel pos pending).1.length = pending.length := by
  induction fuel with
  | zero =>
    intro pos pending hnd hlen
    have hnil : pending = [] := List.length_eq_zero.mp (Nat.le_zero.mp hlen)
    subst hnil
    refine ⟨by simp [extractRunAux, consecPos], by simp [extractRunAux], ?_, ?_, ?_⟩ <;>
      simp [extractRunAux]
  | succ fuel ih =>
    intro pos pending hnd hlen
    cases hfind : findAtPos pos pending with
    | none =>
      have hne := findAtPos_eq_none hfind
      have heq : extractRunAux (fuel + 1) pos pending = ([], pending) := by
        simp [extractRunAux, hfind]
      rw [heq]
      refine ⟨by simp [consecPos], List.Sublist.refl _, by simp, ?_, by simp⟩
      intro p hp
      have := hne p hp
      simp only [List.length_nil]
      omega
    | some q =>
      have hq := findAtPos_eq_some hfind
      have heq : extractRunAux (fuel + 1) pos pending
          = (q.c :: (extractRunAux fuel (pos + 1) (removeAtPos pos pending)).1,
             (extractRunAux fuel (pos + 1) (removeAtPos pos pending)).2) := by
        simp [extractRunAux, hfind]
      have hsub : List.Sublist (removeAtPos pos pending) pending :=
        removeAtPos_sublist pos pending
      have hndr : posNodup (removeAtPos pos pending) := List.Pairwise.sublist hsub hnd
      have hlenr : (removeAtPos pos pending).length + 1 = pending.length :=
        removeAtPos_length hfind
      have hnotpos : ∀ p ∈ removeAtPos pos pending, p.c.pos ≠ pos :=
        removeAtPos_pos_ne hnd
      obtain ⟨ih1, ih2, ih3, ih4, ih5⟩ :=
        ih (pos + 1) (removeAtPos pos pending) hndr (by omega)
      rw [heq]
      refine ⟨?_, ?_, ?_, ?_, ?_⟩
      · exact ⟨hq.2, ih1⟩
      · exact ih2.trans hsub
      · intro c hc
        rcases List.mem_cons.mp hc with hc | hc
        · exact hc ▸ List.mem_map_of_mem Pending.c hq.1
        · have := ih3 c hc
          exact (hsub.map Pending.c).subset this
      · intro p hp
        have h4 := ih4 p hp
        have hne := hnotpos p (ih2.subset hp)
        simp only [List.length_cons]
        omega
      · simp only [List.length_cons]
        omega

theorem extractRun_pendWF {fuel pos : Nat} {pending : List Pending}
    (hnd : posNodup pending) (hge : ∀ p ∈ pending, pos ≤ p.c.pos)
    (hlen : pending.length ≤ fuel) :
    pendWF (pos + (extractRunAux fuel pos pending).1.length)
      (extractRunAux fuel pos pending).2 := by
  obtain ⟨_, hsub, _, hbound, _⟩ := extractRun_spec fuel pos pending hnd hlen
  constructor
  · intro p hp
    have h1 := hge p (hsub.subset hp)
    have h2 := hbound p hp
    omega
  · exact List.Pairwise.sublist hsub hnd

theorem extractRun_fst_ne_nil {fuel pos : Nat} {pending : List Pending}
    {q : Pending} (hfind : findAtPos pos pending = some q) (hfuel : 1 ≤ fuel) :
    (extractRunAux fuel pos pending).1 ≠ [] := by
  cases fuel with
  | zero => omega
  | succ f => simp [extractRunAux, hfind]

theorem bufferedBytes_sublist {l₁ l₂ : List Pending}
    (h : List.Sublist l₁ l₂) : bufferedBytes l₁ ≤ bufferedBytes l₂ := by
  induction h with
  | slnil => exact le_refl _
  | cons a h ih =>
    simp only [bufferedBytes, List.map_cons, List.sum_cons] at *
    omega
  | cons₂ a h ih =>
    simp only [bufferedBytes, List.map_cons, List.sum_cons] at *
    omega

/-! ## Lemmas about well-formed output -/

theorem consecPos_ge {cs : List Chunk} :
    ∀ {p : Nat}, consecPos p cs → ∀ c ∈ cs, p ≤ c.pos ∧ c.pos < p + cs.length := by
  induction cs with
  | nil => simp
  | cons a cs ih =>
    intro p hc c hcmem
    simp only [consecPos] at hc
    rcases List.mem_cons.mp hcmem with h | h
    · subst h
      simp only [List.length_cons]
      omega
    · have := ih hc.2 c h
      simp only [List.length_cons]
      omega

theorem consecPos_chain {cs : List Chunk} :
    ∀ {p : Nat}, consecPos p cs → cs.Chain' fun a b => a.pos < b.pos := by
  induction cs with
  | nil => simp
  | cons a cs ih =>
    intro p hc
    simp only [consecPos] at hc
    rw [List.chain'_cons']
    refine ⟨?_, ih hc.2⟩
    intro b hb
    have hbmem : b ∈ cs := List.mem_of_mem_head? hb
    have := (consecPos_ge hc.2 b hbmem).1
    omega

theorem outWF_emitted_ge {out : List OutItem} :
    ∀ {p : Nat}, outWF p out → ∀ c ∈ emittedChunks out, p ≤ c.pos := by
  induction out with
  | nil => simp [emittedChunks]
  | cons i rest ih =>
    intro p hw c hc
    cases i with
    | seg s cs =>
      simp only [outWF] at hw
      simp only [emittedChunks, List.mem_append] at hc
      rcases hc with hc | hc
      · exact (consecPos_ge hw.2.1 c hc).1
      · have := ih hw.2.2 c hc
        omega
    | gap s n =>
      simp only [outWF] at hw
      simp only [emittedChunks] at hc
      have := ih hw.2 c hc
      omega

theorem outWF_chain {out : List OutItem} :
    ∀ {p : Nat}, outWF p out →
      (emittedChunks out).Chain' fun a b => a.pos < b.pos := by
  induction out with
  | nil => simp [emittedChunks]
  | cons i rest ih =>
    intro p hw
    cases i with
    | seg s cs =>
      simp only [outWF] at hw
      simp only [emittedChunks]
      rw [List.chain'_append]
      refine ⟨consecPos_chain hw.2.1, ih hw.2.2, ?_⟩
      intro x hx y hy
      have hxm : x ∈ cs := List.mem_of_mem_getLast? hx
      have hym : y ∈ emittedChunks rest := List.mem_of_mem_head? hy
      have h1 := (consecPos_ge hw.2.1 x hxm).2
      have h2 := outWF_emitted_ge hw.2.2 y hym
      omega
    | gap s n =>
      simp only [outWF] at hw
      simp only [emittedChunks]
      exact ih hw.2

theorem outLen_cons (i : OutItem) (rest : List OutItem) :
    outLen (i :: rest) = itemLen i + outLen rest := by
  simp [outLen]

theorem outLen_append (xs ys : List OutItem) :
    outLen (xs ++ ys) = outLen xs + outLen ys := by
  simp [outLen]

theorem emittedChunks_append (xs ys : List OutItem) :
    emittedChunks (xs ++ ys) = emittedChunks xs ++ emittedChunks ys := by
  induction xs with
  | nil => simp [emittedChunks]
  | cons i rest ih => cases i <;> simp [emittedChunks, ih]

theorem outWF_append {xs : List OutItem} :
    ∀ {p : Nat} {ys : List OutItem},
      outWF p xs → outWF (p + outLen xs) ys → outWF p (xs ++ ys) := by
  induction xs with
  | nil =>
    intro p ys h1 h2
    simpa [outLen] using h2
  | cons i rest ih =>
    intro p ys h1 h2
    cases i with
    | seg s cs =>
      simp only [outWF] at h1
      simp only [List.cons_append, outWF]
      refine ⟨h1.1, h1.2.1, ih h1.2.2 ?_⟩
      have harith : p + cs.length + outLen rest
          = p + outLen (OutItem.seg s cs :: rest) := by
        rw [outLen_cons]
        simp only [itemLen]
        omega
      rw [harith]
      exact h2
    | gap s n =>
      simp only [outWF] at h1
      simp only [List.cons_append, outWF]
      refine ⟨h1.1, ih h1.2 ?_⟩
      have harith : p + n + outLen rest
          = p + outLen (OutItem.gap s n :: rest) := by
        rw [outLen_cons]
        simp only [itemLen]
        omega
      rw [harith]
      exact h2

theorem outWF_itemsConsecutive {out : List OutItem} :
    ∀ {p : Nat}, outWF p out → itemsConsecutive p out = true := by
  induction out with
  | nil => simp [itemsConsecutive]
  | cons i rest ih =>
    intro p hw
    cases i with
    | seg s cs =>
      simp only [outWF] at hw
      simp only [itemsConsecutive, itemStart, itemLen, Bool.and_eq_true, beq_iff_eq]
      exact ⟨hw.1, ih hw.2.2⟩
    | gap s n =>
      simp only [outWF] at hw
      simp only [itemsConsecutive, itemStart, itemLen, Bool.and_eq_true, beq_iff_eq]
      exact ⟨hw.1, ih hw.2⟩

theorem outWF_itemStart_ge {out : List OutItem} :
    ∀ {p : Nat}, outWF p out → ∀ i ∈ out, p ≤ itemStart i := by
  induction out with
  | nil => simp
  | cons i rest ih =>
    intro p hw j hj
    cases i with
    | seg s cs =>
      simp only [outWF] at hw
      rcases List.mem_cons.mp hj with hj | hj
      · subst hj
        simp [itemStart, hw.1]
      · have := ih hw.2.2 j hj
        omega
    | gap s n =>
      simp only [outWF] at hw
      rcases List.mem_cons.mp hj with hj | hj
      · subst hj
        simp [itemStart, hw.1]
      · have := ih hw.2 j hj
        omega

/-! ## The drain and forced-flush loops preserve the buffer invariants -/

theorem loopSpec_id {n : Nat} {pending : List Pending} (hwf : pendWF n pending) :
    loopSpec n pending ([], n, pending) :=
  ⟨trivial, by simp [outLen], hwf, List.Sublist.refl _, by simp [emittedChunks]⟩

theorem loopSpec_gap {nextPos m : Nat} {pending : List Pending}
    {r : List OutItem × Nat × List Pending}
    (hwf : pendWF nextPos pending)
    (hmin : minPendingPos pending = some m)
    (hlt : nextPos < m)
    (hr : loopSpec (m + (extractRunAux pending.length m pending).1.length)
            (extractRunAux pending.length m pending).2 r) :
    loopSpec nextPos pending
      (OutItem.gap nextPos (m - nextPos)
        :: OutItem.seg m (extractRunAux pending.length m pending).1 :: r.1,
       r.2) := by
  have hle : ∀ p ∈ pending, m ≤ p.c.pos := minPendingPos_le hmin
  have hrun := extractRun_spec pending.length m pending hwf.2 (le_refl _)
  obtain ⟨hr1, hr2, hr3, hr4, hr5⟩ := hr
  have hm : nextPos + (m - nextPos) = m := by omega
  refine ⟨?_, ?_, hr3, ?_, ?_⟩
  · simp only [outWF]
    rw [hm]
    exact ⟨by trivial, by trivial, hrun.1, hr1⟩
  · rw [hr2, outLen_cons, outLen_cons]
    simp only [itemLen]
    omega
  · exact hr4.trans hrun.2.1
  · intro c hc
    simp only [emittedChunks] at hc
    rcases List.mem_append.mp hc with hc | hc
    · exact hrun.2.2.1 c hc
    · have := hr5 c hc
      exact (hrun.2.1.map Pending.c).subset this

theorem loopSpec_seg {nextPos : Nat} {pending : List Pending}
    {r : List OutItem × Nat × List Pending}
    (hwf : pendWF nextPos pending)
    (hr : loopSpec (nextPos + (extractRunAux pending.length nextPos pending).1.length)
            (extractRunAux pending.length nextPos pending).2 r) :
    loopSpec nextPos pending
      (OutItem.seg nextPos (extractRunAux pending.length nextPos pending).1 :: r.1,
       r.2) := by
  have hrun := extractRun_spec pending.length nextPos pending hwf.2 (le_refl _)
  obtain ⟨hr1, hr2, hr3, hr4, hr5⟩ := hr
  refine ⟨?_, ?_, hr3, ?_, ?_⟩
  · simp only [outWF]
    exact ⟨by trivial, hrun.1, hr1⟩
  · rw [hr2, outLen_cons]
    simp only [itemLen]
    omega
  · exact hr4.trans hrun.2.1
  · intro c hc
    simp only [emittedChunks] at hc
    rcases List.mem_append.mp hc with hc | hc
    · exact hrun.2.2.1 c hc
    · have := hr5 c hc
      exact (hrun.2.1.map Pending.c).subset this

theorem minPendingPos_all_ge {pending : List Pending} {m : Nat}
    (_hwf : pendWF m pending) (hmin : minPendingPos pending = some m) :
    ∃ q, findAtPos m pending = some q := by
  obtain ⟨p, hp, hppos⟩ := minPendingPos_attained hmin
  exact findAtPos_some_of_mem ⟨p, hp, hppos⟩

theorem minPendingPos_eq_nextPos {pending : List Pending} {nextPos m : Nat}
    (hwf : pendWF nextPos pending) (hmin : minPendingPos pending = some m)
    (hnlt : ¬ nextPos < m) : m = nextPos := by
  obtain ⟨p, hp, hppos⟩ := minPendingPos_attained hmin
  have := hwf.1 p hp
  omega

theorem drainAux_spec (fuel : Nat) :
    ∀ (gapTO now nextPos : Nat) (pending : List Pending),
      pendWF nextPos pending →
      loopSpec nextPos pending (drainAux fuel gapTO now nextPos pending) := by
  induction fuel with
  | zero =>
    intro gapTO now nextPos pending hwf
    exact loopSpec_id hwf
  | succ fuel ih =>
    intro gapTO now nextPos pending hwf
    cases hmin : minPendingPos pending with
    | none =>
      have heq : drainAux (fuel + 1) gapTO now nextPos pending
          = ([], nextPos, pending) := by
        simp [drainAux, hmin]
      rw [heq]
      exact loopSpec_id hwf
    | some m =>
      have hle : ∀ p ∈ pending, m ≤ p.c.pos := minPendingPos_le hmin
      by_cases hlt : nextPos < m
      · by_cases hexp : gapExpired gapTO now pending = true
        · have hwfr : pendWF (m + (extractRunAux pending.length m pending).1.length)
              (extractRunAux pending.length m pending).2 :=
            extractRun_pendWF hwf.2 hle (le_refl _)
          have heq : drainAux (fuel + 1) gapTO now nextPos pending
              = (OutItem.gap nextPos (m - nextPos)
                  :: OutItem.seg m (extractRunAux pending.length m pending).1
                  :: (drainAux fuel gapTO now
                        (m + (extractRunAux pending.length m pending).1.length)
                        (extractRunAux pending.length m pending).2).1,
                 (drainAux fuel gapTO now
                    (m + (extractRunAux pending.length m pending).1.length)
                    (extractRunAux pending.length m pending).2).2) := by
            simp [drainAux, hmin, hlt, hexp]
          rw [heq]
          exact loopSpec_gap hwf hmin hlt (ih _ _ _ _ hwfr)
        · have heq : drainAux (fuel + 1) gapTO now nextPos pending
              = ([], nextPos, pending) := by
            simp [drainAux, hmin, hlt, hexp]
          rw [heq]
          exact loopSpec_id hwf
      · have hmeq : m = nextPos := minPendingPos_eq_nextPos hwf hmin hlt
        subst hmeq
        obtain ⟨q, hqfind⟩ := minPendingPos_all_ge hwf hmin
        have hpne : 1 ≤ pending.length := by
          obtain ⟨p, hp, _⟩ := minPendingPos_attained hmin
          cases pending
          · simp at hp
          · simp
        have hne : (extractRunAux pending.length m pending).1 ≠ [] :=
          extractRun_fst_ne_nil hqfind hpne
        have hne' : (extractRunAux pending.length m pending).1.isEmpty = false :=
          List.isEmpty_eq_false.mpr hne
        have hwfr : pendWF (m + (extractRunAux pending.length m pending).1.length)
            (extractRunAux pending.length m pending).2 :=
          extractRun_pendWF hwf.2 hle (le_refl _)
        have heq : drainAux (fuel + 1) gapTO now m pending
            = (OutItem.seg m (extractRunAux pending.length m pending).1
                :: (drainAux fuel gapTO now
                      (m + (extractRunAux pending.length m pending).1.length)
                      (extractRunAux pending.length m pending).2).1,
               (drainAux fuel gapTO now
                  (m + (extractRunAux pending.length m pending).1.length)
                  (extractRunAux pending.length m pending).2).2) := by
          simp [drainAux, hmin, hlt, hne']
        rw [heq]
        exact loopSpec_seg hwf (ih _ _ _ _ hwfr)

theorem forceAux_spec (fuel : Nat) :
    ∀ (maxB nextPos : Nat) (pending : List Pending),
      pendWF nextPos pending →
      loopSpec nextPos pending (forceAux fuel maxB nextPos pending) := by
  induction fuel with
  | zero =>
    intro maxB nextPos pending hwf
    exact loopSpec_id hwf
  | succ fuel ih =>
    intro maxB nextPos pending hwf
    by_cases hbytes : bufferedBytes pending ≤ maxB
    · have heq : forceAux (fuel + 1) maxB nextPos pending
          = ([], nextPos, pending) := by
        simp [forceAux, hbytes]
      rw [heq]
      exact loopSpec_id hwf
    · cases hmin : minPendingPos pending with
      | none =>
        have heq : forceAux (fuel + 1) maxB nextPos pending
            = ([], nextPos, pending) := by
          simp [forceAux, hbytes, hmin]
        rw [heq]
        exact loopSpec_id hwf
      | some m =>
        have hle : ∀ p ∈ pending, m ≤ p.c.pos := minPendingPos_le hmin
        by_cases hlt : nextPos < m
        · have hwfr : pendWF (m + (extractRunAux pending.length m pending).1.length)
              (extractRunAux pending.length m pending).2 :=
            extractRun_pendWF hwf.2 hle (le_refl _)
          have heq : forceAux (fuel + 1) maxB nextPos pending
              = (OutItem.gap nextPos (m - nextPos)
                  :: OutItem.seg m (extractRunAux pending.length m pending).1
                  :: (forceAux fuel maxB
                        (m + (extractRunAux pending.length m pending).1.length)
                        (extractRunAux pending.length m pending).2).1,
                 (forceAux fuel maxB
                    (m + (extractRunAux pending.length m pending).1.length)
                    (extractRunAux pending.length m pending).2).2) := by
            simp [forceAux, hbytes, hmin, hlt]
          rw [heq]
          exact loopSpec_gap hwf hmin hlt (ih _ _ _ hwfr)
        · have hmeq : m = nextPos := minPendingPos_eq_nextPos hwf hmin hlt
          subst hmeq
          obtain ⟨q, hqfind⟩ := minPendingPos_all_ge hwf hmin
          have hpne : 1 ≤ pending.length := by
            obtain ⟨p, hp, _⟩ := minPendingPos_attained hmin
            cases pending
            · simp at hp
            · simp
          have hne : (extractRunAux pending.length m pending).1 ≠ [] :=
            extractRun_fst_ne_nil hqfind hpne
          have hne' : (extractRunAux pending.length m pending).1.isEmpty = false :=
            List.isEmpty_eq_false.mpr hne
          have hwfr : pendWF (m + (extractRunAux pending.length m pending).1.length)
              (extractRunAux pending.length m pending).2 :=
            extractRun_pendWF hwf.2 hle (le_refl _)
          have heq : forceAux (fuel + 1) maxB m pending
              = (OutItem.seg m (extractRunAux pending.length m pending).1
                  :: (forceAux fuel maxB
                        (m + (extractRunAux pending.length m pending).1.length)
                        (extractRunAux pending.length m pending).2).1,
                 (forceAux fuel maxB
                    (m + (extractRunAux pending.length m pending).1.length)
                    (extractRunAux pending.length m pending).2).2) := by
            simp [forceAux, hbytes, hmin, hlt, hne']
          rw [heq]
          exact loopSpec_seg hwf (ih _ _ _ hwfr)

theorem forceAux_bound (fuel : Nat) :
    ∀ (maxB nextPos : Nat) (pending : List Pending),
      pendWF nextPos pending → pending.length ≤ fuel →
      bufferedBytes (forceAux fuel maxB nextPos pending).2.2 ≤ maxB := by
  induction fuel with
  | zero =>
    intro maxB nextPos pending hwf hlen
    have hnil : pending = [] := List.length_eq_zero.mp (Nat.le_zero.mp hlen)
    subst hnil
    simp [forceAux, bufferedBytes]
  | succ fuel ih =>
    intro maxB nextPos pending hwf hlen
    by_cases hbytes : bufferedBytes pending ≤ maxB
    · have heq : forceAux (fuel + 1) maxB nextPos pending
          = ([], nextPos, pending) := by
        simp [forceAux, hbytes]
      rw [heq]
      exact hbytes
    · cases hmin : minPendingPos pending with
      | none =>
        have hnil : pending = [] := minPendingPos_eq_none.mp hmin
        subst hnil
        simp [bufferedBytes] at hbytes
      | some m =>
        have hle : ∀ p ∈ pending, m ≤ p.c.pos := minPendingPos_le hmin
        have hpne : 1 ≤ pending.length := by
          obtain ⟨p, hp, _⟩ := minPendingPos_attained hmin
          cases pending
          · simp at hp
          · simp
        obtain ⟨q, hqfind⟩ := findAtPos_some_of_mem (minPendingPos_attained hmin)
        have hrun := extractRun_spec pending.length m pending hwf.2 (le_refl _)
        have hne : (extractRunAux pending.length m pending).1 ≠ [] := by
          have hq2 := findAtPos_eq_some hqfind
          exact extractRun_fst_ne_nil hqfind hpne
        have hlenrun : 1 ≤ (extractRunAux pending.length m pending).1.length := by
          cases hcase : (extractRunAux pending.length m pending).1
          · exact absurd hcase hne
          · simp
        have hlen2 : (extractRunAux pending.length m pending).2.length ≤ fuel := by
          have := hrun.2.2.2.2
          omega
        have hwfr : pendWF (m + (extractRunAux pending.length m pending).1.length)
            (extractRunAux pending.length m pending).2 :=
          extractRun_pendWF hwf.2 hle (le_refl _)
        by_cases hlt : nextPos < m
        · have heq : forceAux (fuel + 1) maxB nextPos pending
              = (OutItem.gap nextPos (m - nextPos)
                  :: OutItem.seg m (extractRunAux pending.length m pending).1
                  :: (forceAux fuel maxB
                        (m + (extractRunAux pending.length m pending).1.length)
                        (extractRunAux pending.length m pending).2).1,
                 (forceAux fuel maxB
                    (m + (extractRunAux pending.length m pending).1.length)
                    (extractRunAux pending.length m pending).2).2) := by
            simp [forceAux, hbytes, hmin, hlt]
          rw [heq]
          exact ih _ _ _ hwfr hlen2
        · have hmeq : m = nextPos := minPendingPos_eq_nextPos hwf hmin hlt
          subst hmeq
          have hne' : (extractRunAux pending.length m pending).1.isEmpty = false :=
            List.isEmpty_eq_false.mpr hne
          have heq : forceAux (fuel + 1) maxB m pending
              = (OutItem.seg m (extractRunAux pending.length m pending).1
                  :: (forceAux fuel maxB
                        (m + (extractRunAux pending.length m pending).1.length)
                        (extractRunAux pending.length m pending).2).1,
                 (forceAux fuel maxB
                    (m + (extractRunAux pending.length m pending).1.length)
                    (extractRunAux pending.length m pending).2).2) := by
            simp [forceAux, hbytes, hmin, hlt, hne']
          rw [heq]
          exact ih _ _ _ hwfr hlen2

/-! ## Insert, step and run preserve the invariants -/

theorem insert_fields (b : RB) (now : Nat) (c : Chunk) :
    (b.insert now c).nextPos = b.nextPos ∧
    (b.insert now c).gap_timeout = b.gap_timeout ∧
    (b.insert now c).max_buffered_bytes_per_stream
      = b.max_buffered_bytes_per_stream ∧
    ((b.insert now c).pending = b.pending ∨
      (b.insert now c).pending = ⟨c, now⟩ :: b.pending) := by
  unfold RB.insert
  split_ifs <;> simp

theorem insert_pendWF (b : RB) (now : Nat) (c : Chunk)
    (h : pendWF b.nextPos b.pending) :
    pendWF (b.insert now c).nextPos (b.insert now c).pending := by
  unfold RB.insert
  split_ifs with h1 h2 h3
  · exact h
  · exact h
  · exact h
  · constructor
    · intro p hp
      rcases List.mem_cons.mp hp with hp | hp
      · subst hp
        simpa using Nat.le_of_not_lt h2
      · exact h.1 p hp
    · refine List.pairwise_cons.mpr ⟨?_, h.2⟩
      intro p hp
      have : ¬ (posIn c.pos b.pending = true) := h3
      simp only [posIn, List.any_eq_true, beq_iff_eq] at this
      push_neg at this
      exact fun hcon => this p hp (by simpa using hcon.symm)

theorem insert_chunks_sub (b : RB) (now : Nat) (c : Chunk) :
    ∀ d ∈ chunksOf (b.insert now c).pending,
      d ∈ chunksOf b.pending ∨ d = c := by
  intro d hd
  rcases (insert_fields b now c).2.2.2 with hcase | hcase
  · rw [hcase] at hd
    exact Or.inl hd
  · rw [hcase] at hd
    simp only [chunksOf, List.map_cons] at hd
    rcases List.mem_cons.mp hd with hd | hd
    · exact Or.inr hd
    · exact Or.inl hd

theorem step_outWF {b : RB} {e : Ev} (h : pendWF b.nextPos b.pending) :
    outWF b.nextPos (b.step e).1 ∧
    (b.step e).2.nextPos = b.nextPos + outLen (b.step e).1 ∧
    pendWF (b.step e).2.nextPos (b.step e).2.pending ∧
    (∀ c ∈ emittedChunks (b.step e).1,
      c ∈ chunksOf b.pending ∨ c ∈ insChunks [e]) ∧
    (∀ c ∈ chunksOf (b.step e).2.pending,
      c ∈ chunksOf b.pending ∨ c ∈ insChunks [e]) ∧
    (b.step e).2.gap_timeout = b.gap_timeout ∧
    (b.step e).2.max_buffered_bytes_per_stream
      = b.max_buffered_bytes_per_stream := by
  cases e with
  | drain now =>
    have hd := drainAux_spec (b.pending.length + 1) b.gap_timeout now
      b.nextPos b.pending h
    obtain ⟨h1, h2, h3, h4, h5⟩ := hd
    refine ⟨h1, h2, h3, ?_, ?_, rfl, rfl⟩
    · intro c hc
      exact Or.inl (h5 c hc)
    · intro c hc
      exact Or.inl ((h4.map Pending.c).subset hc)
  | ins now c =>
    have hwf1 := insert_pendWF b now c h
    have hf := forceAux_spec (b.insert now c).pending.length
      (b.insert now c).max_buffered_bytes_per_stream
      (b.insert now c).nextPos (b.insert now c).pending hwf1
    obtain ⟨h1, h2, h3, h4, h5⟩ := hf
    obtain ⟨hn, hg, hm, _⟩ := insert_fields b now c
    have hsubc : ∀ d ∈ chunksOf (b.insert now c).pending,
        d ∈ chunksOf b.pending ∨ d ∈ insChunks [Ev.ins now c] := by
      intro d hd
      rcases insert_chunks_sub b now c d hd with hd | hd
      · exact Or.inl hd
      · exact Or.inr (by simp [insChunks, hd])
    refine ⟨by rw [← hn]; exact h1, by rw [← hn]; exact h2, h3, ?_, ?_, hg, hm⟩
    · intro d hd
      exact hsubc d (h5 d hd)
    · intro d hd
      exact hsubc d ((h4.map Pending.c).subset hd)

theorem run_spec (evs : List Ev) :
    ∀ b : RB, pendWF b.nextPos b.pending →
      outWF b.nextPos (b.run evs).1 ∧
      (b.run evs).2.nextPos = b.nextPos + outLen (b.run evs).1 ∧
      pendWF (b.run evs).2.nextPos (b.run evs).2.pending ∧
      (∀ c ∈ emittedChunks (b.run evs).1,
        c ∈ chunksOf b.pending ∨ c ∈ insChunks evs) ∧
      (∀ c ∈ chunksOf (b.run evs).2.pending,
        c ∈ chunksOf b.pending ∨ c ∈ insChunks evs) := by
  induction evs with
  | nil =>
    intro b h
    refine ⟨trivial, by simp [RB.run, outLen], h, ?_, ?_⟩ <;>
      simp [RB.run, emittedChunks]
    intro c hc
    exact Or.inl hc
  | cons e evs ih =>
    intro b h
    obtain ⟨s1, s2, s3, s4, s5, _, _⟩ := step_outWF (b := b) (e := e) h
    obtain ⟨r1, r2, r3, r4, r5⟩ := ih (b.step e).2 s3
    have hmem : ∀ c : Chunk,
        (c ∈ chunksOf b.pending ∨ c ∈ insChunks [e]) ∨ c ∈ insChunks evs →
        c ∈ chunksOf b.pending ∨ c ∈ insChunks (e :: evs) := by
      intro c hc
      cases e with
      | ins now d =>
        simp only [insChunks] at *
        rcases hc with (hc | hc) | hc
        · exact Or.inl hc
        · exact Or.inr (by simp at hc; simp [hc])
        · exact Or.inr (by simp [hc])
      | drain now =>
        simp only [insChunks] at *
        rcases hc with (hc | hc) | hc
        · exact Or.inl hc
        · simp at hc
        · exact Or.inr hc
    have hrun : b.run (e :: evs)
        = ((b.step e).1 ++ ((b.step e).2.run evs).1, ((b.step e).2.run evs).2) := rfl
    rw [hrun]
    refine ⟨?_, ?_, r3, ?_, ?_⟩
    · exact outWF_append s1 (by rw [← s2]; exact r1)
    · rw [outLen_append, r2, s2]
      omega
    · intro c hc
      rw [emittedChunks_append] at hc
      rcases List.mem_append.mp hc with hc | hc
      · exact hmem c (Or.inl (s4 c hc))
      · rcases r4 c hc with hc2 | hc2
        · exact hmem c (Or.inl (s5 c hc2))
        · exact hmem c (Or.inr hc2)
    · intro c hc
      rcases r5 c hc with hc2 | hc2
      · exact hmem c (Or.inl (s5 c hc2))
      · exact hmem c (Or.inr hc2)

theorem step_config (b : RB) (e : Ev) :
    (b.step e).2.gap_timeout = b.gap_timeout ∧
    (b.step e).2.max_buffered_bytes_per_stream
      = b.max_buffered_bytes_per_stream := by
  cases e with
  | drain now => exact ⟨rfl, rfl⟩
  | ins now c =>
    obtain ⟨_, hg, hm, _⟩ := insert_fields b now c
    exact ⟨hg, hm⟩

theorem run_config (evs : List Ev) :
    ∀ b : RB,
      (b.run evs).2.gap_timeout = b.gap_timeout ∧
      (b.run evs).2.max_buffered_bytes_per_stream
        = b.max_buffered_bytes_per_stream := by
  induction evs with
  | nil => intro b; exact ⟨rfl, rfl⟩
  | cons e evs ih =>
    intro b
    have h1 := step_config b e
    have h2 := ih (b.step e).2
    exact ⟨h2.1.trans h1.1, h2.2.trans h1.2⟩

theorem step_bytes {b : RB} {e : Ev} (h : pendWF b.nextPos b.pending)
    (hb : bufferedBytes b.pending ≤ b.max_buffered_bytes_per_stream) :
    bufferedBytes (b.step e).2.pending ≤ b.max_buffered_bytes_per_stream := by
  cases e with
  | drain now =>
    have hd := drainAux_spec (b.pending.length + 1) b.gap_timeout now
      b.nextPos b.pending h
    exact le_trans (bufferedBytes_sublist hd.2.2.2.1) hb
  | ins now c =>
    have hwf1 := insert_pendWF b now c h
    have hbound := forceAux_bound (b.insert now c).pending.length
      (b.insert now c).max_buffered_bytes_per_stream
      (b.insert now c).nextPos (b.insert now c).pending hwf1 (le_refl _)
    exact le_of_le_of_eq hbound (insert_fields b now c).2.2.1

theorem run_bytes (evs : List Ev) :
    ∀ b : RB, pendWF b.nextPos b.pending →
      bufferedBytes b.pending ≤ b.max_buffered_bytes_per_stream →
      bufferedBytes (b.run evs).2.pending
        ≤ (b.run evs).2.max_buffered_bytes_per_stream := by
  induction evs with
  | nil => intro b _ hb; exact hb
  | cons e evs ih =>
    intro b h hb
    have hs := step_bytes (e := e) h hb
    have hc := step_config b e
    have hwf2 := (step_outWF (e := e) h).2.2.1
    exact ih (b.step e).2 hwf2 (by rw [hc.2]; exact hs)

theorem chain_ts_of_chain_pos {l S : List Chunk}
    (hmem : ∀ c ∈ l, c ∈ S)
    (hts : ∀ c ∈ S, ∀ d ∈ S, c.pos < d.pos → c.ts ≤ d.ts)
    (hch : l.Chain' fun a b => a.pos < b.pos) :
    l.Chain' fun a b => a.ts ≤ b.ts := by
  induction l with
  | nil => simp
  | cons a l ih =>
    rw [List.chain'_cons'] at hch ⊢
    refine ⟨?_, ih (fun c hc => hmem c (List.mem_cons_of_mem _ hc)) hch.2⟩
    intro b hb
    have hbm : b ∈ l := List.mem_of_mem_head? hb
    exact hts a (hmem a (by simp)) b (hmem b (List.mem_cons_of_mem _ hbm))
      (hch.1 b hb)

/-! ## Claim theorems -/

/-- C5: the maximum payload size of a capture event chunk is exactly 8192
bytes — every well-formed event's payload has length at most 8192, and both
wire structures (ssl_data_event_t and TLS_MESSAGE) bound their data buffer
by the same constant 8192. -/
theorem c5_payload_max_8192 :
    (∀ e : SslDataEvent, e.WF → e.payload.length ≤ 8192) ∧
    MAX_DATA_SIZE = 8192 ∧ MAX_DATA = 8192 ∧
    CField.mk "data" (CType.charArray 8192) ∈ ssl_data_event_t ∧
    CField.mk "message" (CType.charArray 8192) ∈ TLS_MESSAGE := by
  refine ⟨?_, rfl, rfl, by decide, by decide⟩
  intro e hwf
  have hlen : e.data.length = 8192 := hwf.2.2.2.2.1
  calc e.payload.length ≤ e.data.length := by
        simp [SslDataEvent.payload]
    _ = 8192 := hlen

/-- Witness for C5 at a concrete well-formed event. -/
theorem c5_witness : eventEx.WF ∧ eventEx.payload.length ≤ 8192 := by
  have hwf : eventEx.WF := by
    refine ⟨by norm_num [eventEx], by norm_num [eventEx], by norm_num [eventEx],
      by norm_num [eventEx], by simp [eventEx], ?_, by norm_num [eventEx],
      by norm_num [eventEx]⟩
    intro b hb
    have hb2 : b ∈ List.replicate MAX_DATA_SIZE 0 := by simpa [eventEx] using hb
    have hb0 : b = 0 := List.eq_of_mem_replicate hb2
    simp [hb0]
  exact ⟨hwf, c5_payload_max_8192.1 eventEx hwf⟩

/-- C6: the capture event structure types its fields as pid unsigned 32-bit,
tid signed 32-bit, timestamp_ns unsigned 64-bit, data_len signed 32-bit, and
a fixed 8192-byte data buffer of which only the first data_len bytes are
valid. -/
theorem c6_event_field_types :
    fieldType ssl_data_event_t "pid" = some CType.uint32 ∧
    fieldType ssl_data_event_t "tid" = some CType.int ∧
    fieldType ssl_data_event_t "timestamp_ns" = some CType.uint64 ∧
    fieldType ssl_data_event_t "data_len" = some CType.int ∧
    fieldType ssl_data_event_t "data" = some (CType.charArray 8192) ∧
    CType.uint32.bitWidth = 32 ∧ CType.uint32.isSigned = false ∧
    CType.int.bitWidth = 32 ∧ CType.int.isSigned = true ∧
    CType.uint64.bitWidth = 64 ∧ CType.uint64.isSigned = false ∧
    (∀ e : SslDataEvent, e.payload = e.data.take e.data_len.toNat) := by
  refine ⟨by decide, by decide, by decide, by decide, by decide,
    rfl, rfl, rfl, rfl, rfl, rfl, ?_⟩
  intro e
  rfl

/-- C7: the direction of a capture event is an enumeration with exactly two
members; kSSLRead (the read direction) has numeric value 0 and kSSLWrite
(the write direction) has numeric value 1. -/
theorem c7_direction_enum :
    (∀ t : ssl_data_event_type, t = .kSSLRead ∨ t = .kSSLWrite) ∧
    ssl_data_event_type.kSSLRead ≠ ssl_data_event_type.kSSLWrite ∧
    ssl_data_event_type.toNat .kSSLRead = 0 ∧
    ssl_data_event_type.toNat .kSSLWrite = 1 ∧
    fieldType ssl_data_event_t "type" = some CType.enumSslDataEventType := by
  refine ⟨?_, by decide, rfl, rfl, by decide⟩
  intro t
  cases t
  · exact Or.inl rfl
  · exact Or.inr rfl

/-- C8 counterexample: struct ssl_data_event_t declares exactly the fields
type, timestamp_ns, pid, tid, data, data_len — there is no is_truncated
flag on the wire. -/
theorem c8_counterexample :
    ssl_data_event_t.map CField.fname
      = ["type", "timestamp_ns", "pid", "tid", "data", "data_len"] ∧
    ¬ "is_truncated" ∈ ssl_data_event_t.map CField.fname := by
  exact ⟨rfl, by decide⟩

/-- C8 amended: no capture event structure carries an is_truncated flag; a
write larger than the 8192-byte chunk limit is not signalled in-band, the
only length information on the wire is data_len inside the fixed buffer. -/
theorem c8_no_truncation_flag :
    ssl_data_event_t.map CField.fname
      = ["type", "timestamp_ns", "pid", "tid", "data", "data_len"] ∧
    ¬ "is_truncated" ∈ ssl_data_event_t.map CField.fname ∧
    ¬ "is_truncated" ∈ TLS_MESSAGE.map CField.fname ∧
    fieldType ssl_data_event_t "data_len" = some CType.int := by
  exact ⟨rfl, by decide, by decide, by decide⟩

/-- C9 counterexample: struct TLS_MESSAGE has no field of the direction
enumeration type — it cannot tag an event with read-versus-write. -/
theorem c9_counterexample :
    ¬ ∃ f ∈ TLS_MESSAGE, f.ftype = CType.enumSslDataEventType := by
  decide

/-- C9 amended: ssl_data_event_t carries all four pieces of information
(pid and tid identity, the enum direction field, timestamp_ns, and the
data buffer with data_len), while TLS_MESSAGE carries an identity field
(ptid), an elapsed-time field and the byte chunk (message) but no
direction field. -/
theorem c9_event_structs :
    CField.mk "pid" CType.uint32 ∈ ssl_data_event_t ∧
    CField.mk "tid" CType.int ∈ ssl_data_event_t ∧
    CField.mk "type" CType.enumSslDataEventType ∈ ssl_data_event_t ∧
    CField.mk "timestamp_ns" CType.uint64 ∈ ssl_data_event_t ∧
    CField.mk "data" (CType.charArray MAX_DATA_SIZE) ∈ ssl_data_event_t ∧
    CField.mk "data_len" CType.int ∈ ssl_data_event_t ∧
    CField.mk "ptid" CType.int ∈ TLS_MESSAGE ∧
    CField.mk "elapsed" CType.int ∈ TLS_MESSAGE ∧
    CField.mk "message" (CType.charArray MAX_DATA) ∈ TLS_MESSAGE ∧
    (∀ f ∈ TLS_MESSAGE, f.ftype ≠ CType.enumSslDataEventType) := by
  refine ⟨by decide, by decide, by decide, by decide, by decide,
    by decide, by decide, by decide, by decide, by decide⟩

/-- C10: the CO-RE field relocation interface exposes exactly the six
field-aspect queries byte offset, byte size, existence, signedness, and
64-bit left and right shift, numbered consecutively 0 through 5. -/
theorem c10_core_relocation_kinds :
    (∀ k : bpf_field_info_kind,
      k = .BPF_FIELD_BYTE_OFFSET ∨ k = .BPF_FIELD_BYTE_SIZE ∨
      k = .BPF_FIELD_EXISTS ∨ k = .BPF_FIELD_SIGNED ∨
      k = .BPF_FIELD_LSHIFT_U64 ∨ k = .BPF_FIELD_RSHIFT_U64) ∧
    bpf_field_info_kind.toNat .BPF_FIELD_BYTE_OFFSET = 0 ∧
    bpf_field_info_kind.toNat .BPF_FIELD_BYTE_SIZE = 1 ∧
    bpf_field_info_kind.toNat .BPF_FIELD_EXISTS = 2 ∧
    bpf_field_info_kind.toNat .BPF_FIELD_SIGNED = 3 ∧
    bpf_field_info_kind.toNat .BPF_FIELD_LSHIFT_U64 = 4 ∧
    bpf_field_info_kind.toNat .BPF_FIELD_RSHIFT_U64 = 5 ∧
    (∀ k j : bpf_field_info_kind, k.toNat = j.toNat → k = j) := by
  refine ⟨?_, rfl, rfl, rfl, rfl, rfl, rfl, ?_⟩
  · intro k
    cases k <;> simp
  · intro k j
    cases k <;> cases j <;> decide

theorem insert_dup_drop {b : RB} {now : Nat} {c : Chunk}
    (h : dupIn c b.pending = true) :
    b.insert now c = { b with droppedDups := b.droppedDups + 1 } := by
  simp [RB.insert, h]

theorem insert_keep {b : RB} {now : Nat} {c : Chunk}
    (h1 : dupIn c b.pending = false) (h2 : ¬ c.pos < b.nextPos)
    (h3 : posIn c.pos b.pending = false) :
    b.insert now c = { b with pending := ⟨c, now⟩ :: b.pending } := by
  simp [RB.insert, h1, h2, h3]

/-- C1: for every logical stream and every delivery order of its capture
events (any interleaving of inserts and drain attempts), the output the
buffer emits to the sink covers consecutive stream positions starting at 0
— so no byte range is ever emitted twice — and, whenever the inferred
positions are consistent with the capture timestamps, the emitted chunks
reach the sink in non-decreasing timestamp order. -/
theorem c1_ordered_no_duplicate (gapTO maxB : Nat) (evs : List Ev)
    (hts : ∀ c ∈ insChunks evs, ∀ d ∈ insChunks evs,
      c.pos < d.pos → c.ts ≤ d.ts) :
    itemsConsecutive 0 ((RB.init gapTO maxB).run evs).1 = true ∧
    ((emittedChunks ((RB.init gapTO maxB).run evs).1).Chain'
      fun a b => a.ts ≤ b.ts) := by
  have h0 : pendWF (RB.init gapTO maxB).nextPos (RB.init gapTO maxB).pending :=
    ⟨by simp [RB.init], by simp [RB.init, posNodup]⟩
  obtain ⟨r1, r2, r3, r4, r5⟩ := run_spec evs (RB.init gapTO maxB) h0
  refine ⟨outWF_itemsConsecutive r1, ?_⟩
  refine chain_ts_of_chain_pos (S := insChunks evs) ?_ hts (outWF_chain r1)
  intro c hc
  rcases r4 c hc with h | h
  · simp [RB.init, chunksOf] at h
  · exact h

/-- Witness for C1 on a concrete out-of-order delivery. -/
theorem c1_witness :
    (∀ c ∈ insChunks evsEx, ∀ d ∈ insChunks evsEx,
      c.pos < d.pos → c.ts ≤ d.ts) ∧
    (itemsConsecutive 0 ((RB.init 50 100).run evsEx).1 = true ∧
      ((emittedChunks ((RB.init 50 100).run evsEx).1).Chain'
        fun a b => a.ts ≤ b.ts)) :=
  ⟨by decide, c1_ordered_no_duplicate 50 100 evsEx (by decide)⟩

/-- C2: when the chunks up to position m are permanently missing (the
smallest pending position is m, past the expected next position) and the
oldest pending chunk has aged beyond the gap-timeout, `drain_ready` emits
exactly one gap marker, immediately followed by the next contiguous
segment, and every later emitted item lies past that segment — no later
segment absorbs the missing range. -/
theorem c2_gap_marker_on_timeout (b : RB) (now m : Nat)
    (hwf : pendWF b.nextPos b.pending)
    (hmin : minPendingPos b.pending = some m)
    (hhole : b.nextPos < m)
    (hexp : gapExpired b.gap_timeout now b.pending = true) :
    ∃ run rest,
      (b.drain_ready now).1
        = OutItem.gap b.nextPos (m - b.nextPos) :: OutItem.seg m run :: rest ∧
      run ≠ [] ∧
      (∀ i ∈ rest, m + run.length ≤ itemStart i) ∧
      itemsConsecutive b.nextPos (b.drain_ready now).1 = true := by
  have hle := minPendingPos_le hmin
  have hwfr : pendWF (m + (extractRunAux b.pending.length m b.pending).1.length)
      (extractRunAux b.pending.length m b.pending).2 :=
    extractRun_pendWF hwf.2 hle (le_refl _)
  obtain ⟨q, hqfind⟩ := findAtPos_some_of_mem (minPendingPos_attained hmin)
  have hlen1 : 1 ≤ b.pending.length := by
    obtain ⟨p, hp, _⟩ := minPendingPos_attained hmin
    have := List.length_pos.mpr (List.ne_nil_of_mem hp)
    omega
  have hne : (extractRunAux b.pending.length m b.pending).1 ≠ [] :=
    extractRun_fst_ne_nil hqfind hlen1
  have hd := drainAux_spec b.pending.length b.gap_timeout now
    (m + (extractRunAux b.pending.length m b.pending).1.length)
    (extractRunAux b.pending.length m b.pending).2 hwfr
  have heq : (b.drain_ready now).1
      = OutItem.gap b.nextPos (m - b.nextPos)
        :: OutItem.seg m (extractRunAux b.pending.length m b.pending).1
        :: (drainAux b.pending.length b.gap_timeout now
              (m + (extractRunAux b.pending.length m b.pending).1.length)
              (extractRunAux b.pending.length m b.pending).2).1 := by
    simp [RB.drain_ready, drainAux, hmin, hhole, hexp]
  refine ⟨(extractRunAux b.pending.length m b.pending).1,
    (drainAux b.pending.length b.gap_timeout now
      (m + (extractRunAux b.pending.length m b.pending).1.length)
      (extractRunAux b.pending.length m b.pending).2).1,
    heq, hne, ?_, ?_⟩
  · intro i hi
    exact outWF_itemStart_ge hd.1 i hi
  · have hfull := loopSpec_gap (r := drainAux b.pending.length b.gap_timeout now
      (m + (extractRunAux b.pending.length m b.pending).1.length)
      (extractRunAux b.pending.length m b.pending).2) hwf hmin hhole hd
    have hic := outWF_itemsConsecutive hfull.1
    rw [heq]
    exact hic

/-- Witness for C2 on a concrete buffer with a hole at positions 0 and 1
and an expired gap-timeout. -/
theorem c2_witness :
    pendWF rbC2.nextPos rbC2.pending ∧
    minPendingPos rbC2.pending = some 2 ∧
    rbC2.nextPos < 2 ∧
    gapExpired rbC2.gap_timeout 10 rbC2.pending = true ∧
    (∃ run rest,
      (rbC2.drain_ready 10).1
        = OutItem.gap rbC2.nextPos (2 - rbC2.nextPos)
            :: OutItem.seg 2 run :: rest ∧
      run ≠ [] ∧
      (∀ i ∈ rest, 2 + run.length ≤ itemStart i) ∧
      itemsConsecutive rbC2.nextPos (rbC2.drain_ready 10).1 = true) :=
  ⟨by decide, by decide, by decide, by decide,
    c2_gap_marker_on_timeout rbC2 10 2 (by decide) (by decide) (by decide)
      (by decide)⟩

/-- C3: inserting the same (timestamp, payload) chunk twice yields exactly
one occurrence of it in the buffer (hence at most once in any emitted
output); the second insert changes nothing but the dropped-duplicate
counter, which it increments, and the output of a subsequent drain is
unchanged. -/
theorem c3_duplicate_insert (b : RB) (n1 n2 now : Nat) (c : Chunk)
    (hfresh : ∀ p ∈ b.pending, ¬(p.c.ts = c.ts ∧ p.c.payload = c.payload))
    (hpos : b.nextPos ≤ c.pos)
    (hnocol : ∀ p ∈ b.pending, p.c.pos ≠ c.pos) :
    ((b.insert n1 c).insert n2 c).pending = (b.insert n1 c).pending ∧
    ((b.insert n1 c).insert n2 c).nextPos = (b.insert n1 c).nextPos ∧
    ((b.insert n1 c).insert n2 c).droppedDups
      = (b.insert n1 c).droppedDups + 1 ∧
    ((b.insert n1 c).pending.countP
      fun p => p.c.ts == c.ts && p.c.payload == c.payload) = 1 ∧
    (((b.insert n1 c).insert n2 c).drain_ready now).1
      = ((b.insert n1 c).drain_ready now).1 := by
  have hdup1 : dupIn c b.pending = false := by
    simp only [dupIn, List.any_eq_false, Bool.and_eq_true, beq_iff_eq]
    intro p hp
    exact hfresh p hp
  have hlt1 : ¬ c.pos < b.nextPos := not_lt.mpr hpos
  have hposin : posIn c.pos b.pending = false := by
    simp only [posIn, List.any_eq_false, beq_iff_eq]
    intro p hp
    exact hnocol p hp
  have hb1 : b.insert n1 c = { b with pending := ⟨c, n1⟩ :: b.pending } :=
    insert_keep hdup1 hlt1 hposin
  have hdup2 : dupIn c (b.insert n1 c).pending = true := by
    rw [hb1]
    simp [dupIn]
  have hb2 : (b.insert n1 c).insert n2 c
      = { b.insert n1 c with
          droppedDups := (b.insert n1 c).droppedDups + 1 } :=
    insert_dup_drop hdup2
  refine ⟨by rw [hb2], by rw [hb2], by rw [hb2], ?_, by rw [hb2]; rfl⟩
  rw [hb1]
  simp only [List.countP_cons]
  have hzero : (b.pending.countP
      fun p => p.c.ts == c.ts && p.c.payload == c.payload) = 0 := by
    rw [List.countP_eq_zero]
    intro p hp
    simp only [Bool.and_eq_true, beq_iff_eq]
    exact hfresh p hp
  simp [hzero]

/-- Witness for C3: one duplicate insert into a fresh buffer. -/
theorem c3_witness :
    (∀ p ∈ (RB.init 5 100).pending,
      ¬(p.c.ts = chunkEx.ts ∧ p.c.payload = chunkEx.payload)) ∧
    (RB.init 5 100).nextPos ≤ chunkEx.pos ∧
    (∀ p ∈ (RB.init 5 100).pending, p.c.pos ≠ chunkEx.pos) ∧
    ((((RB.init 5 100).insert 0 chunkEx).insert 1 chunkEx).pending
        = ((RB.init 5 100).insert 0 chunkEx).pending ∧
      (((RB.init 5 100).insert 0 chunkEx).insert 1 chunkEx).nextPos
        = ((RB.init 5 100).insert 0 chunkEx).nextPos ∧
      (((RB.init 5 100).insert 0 chunkEx).insert 1 chunkEx).droppedDups
        = ((RB.init 5 100).insert 0 chunkEx).droppedDups + 1 ∧
      (((RB.init 5 100).insert 0 chunkEx).pending.countP
        fun p => p.c.ts == chunkEx.ts && p.c.payload == chunkEx.payload) = 1 ∧
      ((((RB.init 5 100).insert 0 chunkEx).insert 1 chunkEx).drain_ready 2).1
        = (((RB.init 5 100).insert 0 chunkEx).drain_ready 2).1) :=
  ⟨by decide, by decide, by decide,
    c3_duplicate_insert (RB.init 5 100) 0 1 2 chunkEx (by decide) (by decide)
      (by decide)⟩

/-- C4: the buffered-but-unemitted bytes of a stream never exceed the
configured max_buffered_bytes_per_stream ceiling after any event sequence,
and an insertion that pushes the buffer over the ceiling forces forward
progress — the ingest emits at least one item (an early segment or a
flush-with-gap) instead of growing the buffer. -/
theorem c4_bounded_buffer (gapTO maxB : Nat) :
    (∀ evs : List Ev,
      bufferedBytes (((RB.init gapTO maxB).run evs).2.pending) ≤ maxB) ∧
    (∀ (b : RB) (now : Nat) (c : Chunk),
      pendWF b.nextPos b.pending →
      b.max_buffered_bytes_per_stream = maxB →
      maxB < bufferedBytes (b.insert now c).pending →
      (b.ingest now c).1 ≠ []) := by
  constructor
  · intro evs
    have h0 : pendWF (RB.init gapTO maxB).nextPos (RB.init gapTO maxB).pending :=
      ⟨by simp [RB.init], by simp [RB.init, posNodup]⟩
    have hb0 : bufferedBytes (RB.init gapTO maxB).pending
        ≤ (RB.init gapTO maxB).max_buffered_bytes_per_stream := by
      simp [RB.init, bufferedBytes]
    have hrb := run_bytes evs (RB.init gapTO maxB) h0 hb0
    have hcfg := (run_config evs (RB.init gapTO maxB)).2
    rw [hcfg] at hrb
    exact hrb
  · intro b now c hwf hmax hover
    have hwf1 := insert_pendWF b now c hwf
    have hmax1 : (b.insert now c).max_buffered_bytes_per_stream = maxB :=
      ((insert_fields b now c).2.2.1).trans hmax
    have hbytes : ¬ bufferedBytes (b.insert now c).pending
        ≤ (b.insert now c).max_buffered_bytes_per_stream := by
      rw [hmax1]
      omega
    have hpne : (b.insert now c).pending ≠ [] := by
      intro hnil
      rw [hnil] at hover
      simp [bufferedBytes] at hover
    have hlen1 : 1 ≤ (b.insert now c).pending.length :=
      List.length_pos.mpr hpne
    obtain ⟨k, hk⟩ : ∃ k, (b.insert now c).pending.length = k + 1 :=
      ⟨(b.insert now c).pending.length - 1, by omega⟩
    cases hmin : minPendingPos (b.insert now c).pending with
    | none => exact absurd (minPendingPos_eq_none.mp hmin) hpne
    | some m =>
      have heq0 : (b.ingest now c).1
          = (forceAux (b.insert now c).pending.length
              (b.insert now c).max_buffered_bytes_per_stream
              (b.insert now c).nextPos (b.insert now c).pending).1 := rfl
      rw [heq0, hk]
      by_cases hlt : (b.insert now c).nextPos < m
      · simp [forceAux, hbytes, hmin, hlt]
      · have hmeq : m = (b.insert now c).nextPos :=
          minPendingPos_eq_nextPos hwf1 hmin hlt
        subst hmeq
        obtain ⟨q, hqfind⟩ := minPendingPos_all_ge hwf1 hmin
        have hne : (extractRunAux (b.insert now c).pending.length
            (b.insert now c).nextPos (b.insert now c).pending).1 ≠ [] := by
          exact extractRun_fst_ne_nil hqfind hlen1
        have hne' := List.isEmpty_eq_false.mpr hne
        simp [forceAux, hbytes, hmin, hlt, hne']

/-- Witness for C4: a 3-byte chunk against a 2-byte ceiling. -/
theorem c4_witness :
    bufferedBytes (((RB.init 5 2).run [Ev.ins 0 chunkEx]).2.pending) ≤ 2 ∧
    pendWF (RB.init 5 2).nextPos (RB.init 5 2).pending ∧
    (RB.init 5 2).max_buffered_bytes_per_stream = 2 ∧
    2 < bufferedBytes ((RB.init 5 2).insert 0 chunkEx).pending ∧
    ((RB.init 5 2).ingest 0 chunkEx).1 ≠ [] :=
  ⟨(c4_bounded_buffer 5 2).1 [Ev.ins 0 chunkEx], by decide, rfl, by decide,
    (c4_bounded_buffer 5 2).2 (RB.init 5 2) 0 chunkEx (by decide) rfl
      (by decide)⟩

end KeployTLS
